import Mathlib

/-!
Verification of the SEDI-Search core pipeline.

This file gives a shallow embedding, over `List Char`, of the three core
components of the repository:

* `src/matching/normalise.py` — name normalisation (`normalise_name`,
  `split_first_last`, `strip_diacritics`);
* `src/matching/matcher.py` — scoring (`score_pair`), donor preparation and
  the best-match selection loop (`match_transactions_to_donors`);
* `src/parsers/sedi_weekly_pdf.py` — the stateful line scanner
  (`parse_sedi_pdf`) with its header regexes and field extraction.

Python strings are modelled as `List Char`; Python `str` methods
(`strip`, `split`, `lower`, `replace`) and the regular expressions of the
source are modelled by explicit recursive functions, each one documented
with the construct it embeds.  Library functions from outside the
repository are modelled as follows: `rapidfuzz.fuzz.WRatio` is an opaque
parameter `wr` (its documented contract, a similarity in `[0, 100]`,
appears as a hypothesis where needed); `unicodedata.normalize('NFKD', ·)`
together with `unicodedata.combining` is modelled by a finite
decomposition table covering the Latin-1 letters (all other characters
are left untouched, matching NFKD on characters that have no
decomposition).  Python `float` arithmetic inside `score_pair` is
modelled with exact rationals.
-/

/-- Characters counted as whitespace by Python's `str.strip` / `\s`
(ASCII fragment: space, tab, newline, carriage return, vertical tab,
form feed). -/
def isWs (c : Char) : Bool :=
  c = ' ' || c = '\t' || c = '\n' || c = '\r' || c = Char.ofNat 11 || c = Char.ofNat 12

/-- Model of Python `str.lower` on a single character (ASCII range,
as exercised by the repository's inputs). -/
def pyLower (c : Char) : Char :=
  if 65 ≤ c.toNat ∧ c.toNat ≤ 90 then Char.ofNat (c.toNat + 32) else c

/-- Model of Python `str.lower`. -/
def lowerL (l : List Char) : List Char := l.map pyLower

/-- Convenience: a Lean string literal as a character list. -/
def strL (s : String) : List Char := s.toList

/-- Model of Python `str.strip()`: drop leading and trailing whitespace. -/
def pyStrip (l : List Char) : List Char :=
  ((l.dropWhile isWs).reverse.dropWhile isWs).reverse

/-- Model of `re.sub(r"\s+", ' ', s)`: every maximal run of whitespace
becomes a single space (a whitespace character followed by more
whitespace is dropped; the run's last whitespace character becomes
`' '`). -/
def collapseWs : List Char → List Char
  | [] => []
  | [c] => if isWs c then [' '] else [c]
  | c :: d :: cs =>
    if isWs c then
      if isWs d then collapseWs (d :: cs) else ' ' :: collapseWs (d :: cs)
    else c :: collapseWs (d :: cs)

/-- Model of Python `str.split(sep)` for a one-character separator:
splits at every occurrence, keeping empty segments; the result is never
the empty list. -/
def pySplitChar (sep : Char) : List Char → List (List Char)
  | [] => [[]]
  | c :: cs =>
    if c = sep then [] :: pySplitChar sep cs
    else
      match pySplitChar sep cs with
      | [] => [[c]]
      | t :: ts => (c :: t) :: ts

/-- Model of `' '.join(tokens)`. -/
def joinSp : List (List Char) → List Char
  | [] => []
  | [t] => t
  | t :: t2 :: ts => t ++ ' ' :: joinSp (t2 :: ts)

/-- Accumulator worker for `wsSplit`: `cur` holds the characters of the
token in progress, reversed. -/
def wsSplitGo (cur : List Char) : List Char → List (List Char)
  | [] => if cur = [] then [] else [cur.reverse]
  | c :: cs =>
    if isWs c then
      if cur = [] then wsSplitGo [] cs else cur.reverse :: wsSplitGo [] cs
    else wsSplitGo (c :: cur) cs

/-- Model of Python `str.split()` (no argument): split on whitespace
runs, dropping empty tokens. -/
def wsSplit (l : List Char) : List (List Char) :=
  wsSplitGo [] l

/-- Embedding of `split_first_last` (src/matching/normalise.py): empty
input yields `("","")`; one whitespace token serves as both first and
last; otherwise the first and last tokens.  (On a non-empty all-whitespace
input the Python code would raise `IndexError`; that case is unreachable
from `normalise_name` outputs and is modelled as `("","")`.) -/
def splitFirstLast (n : List Char) : List Char × List Char :=
  if n = [] then ([], [])
  else
    match wsSplit n with
    | [] => ([], [])
    | t :: ts => (t, ts.getLastD t)

/-- Combining grave accent U+0300. -/
def cGrave : Char := Char.ofNat 768
/-- Combining acute accent U+0301. -/
def cAcute : Char := Char.ofNat 769
/-- Combining circumflex U+0302. -/
def cCirc : Char := Char.ofNat 770
/-- Combining tilde U+0303. -/
def cTilde : Char := Char.ofNat 771
/-- Combining diaeresis U+0308. -/
def cDia : Char := Char.ofNat 776
/-- Combining ring above U+030A. -/
def cRing : Char := Char.ofNat 778
/-- Combining cedilla U+0327. -/
def cCedilla : Char := Char.ofNat 807

/-- Model of `unicodedata.combining(c) != 0`: true on the combining
diacritical marks block U+0300–U+036F (the marks produced by the
decomposition table below). -/
def isCombining (c : Char) : Bool :=
  768 ≤ c.toNat && c.toNat < 880

/-- NFKD decompositions used by `strip_diacritics`, tabulated for the
Latin-1 accented letters (and the compatibility decomposition of '™').
Characters outside the table have no decomposition and map to
themselves, matching `unicodedata.normalize('NFKD', ·)` on such
characters. -/
def decompTable : List (Char × List Char) :=
  [ ('à', ['a', cGrave]), ('á', ['a', cAcute]), ('â', ['a', cCirc]),
    ('ã', ['a', cTilde]), ('ä', ['a', cDia]), ('å', ['a', cRing]),
    ('è', ['e', cGrave]), ('é', ['e', cAcute]), ('ê', ['e', cCirc]), ('ë', ['e', cDia]),
    ('ì', ['i', cGrave]), ('í', ['i', cAcute]), ('î', ['i', cCirc]), ('ï', ['i', cDia]),
    ('ò', ['o', cGrave]), ('ó', ['o', cAcute]), ('ô', ['o', cCirc]),
    ('õ', ['o', cTilde]), ('ö', ['o', cDia]),
    ('ù', ['u', cGrave]), ('ú', ['u', cAcute]), ('û', ['u', cCirc]), ('ü', ['u', cDia]),
    ('ç', ['c', cCedilla]), ('ñ', ['n', cTilde]), ('ý', ['y', cAcute]), ('ÿ', ['y', cDia]),
    ('À', ['A', cGrave]), ('Á', ['A', cAcute]), ('Â', ['A', cCirc]),
    ('Ã', ['A', cTilde]), ('Ä', ['A', cDia]), ('Å', ['A', cRing]),
    ('È', ['E', cGrave]), ('É', ['E', cAcute]), ('Ê', ['E', cCirc]), ('Ë', ['E', cDia]),
    ('Ì', ['I', cGrave]), ('Í', ['I', cAcute]), ('Î', ['I', cCirc]), ('Ï', ['I', cDia]),
    ('Ò', ['O', cGrave]), ('Ó', ['O', cAcute]), ('Ô', ['O', cCirc]),
    ('Õ', ['O', cTilde]), ('Ö', ['O', cDia]),
    ('Ù', ['U', cGrave]), ('Ú', ['U', cAcute]), ('Û', ['U', cCirc]), ('Ü', ['U', cDia]),
    ('Ç', ['C', cCedilla]), ('Ñ', ['N', cTilde]),
    ('™', ['T', 'M']) ]

/-- One character's NFKD decomposition (identity off the table). -/
def decomp (c : Char) : List Char :=
  (List.lookup c decompTable).getD [c]

/-- Embedding of `strip_diacritics` (src/matching/normalise.py):
NFKD-decompose, then drop combining marks. -/
def stripDiacritics (l : List Char) : List Char :=
  (l.flatMap decomp).filter (fun c => !isCombining c)

/-- Embedding of `.replace('â€™', "'")` (src/matching/normalise.py):
the source file literally contains the three-character mojibake sequence
`â`, `€`, `™`; every occurrence is replaced by an ASCII apostrophe,
scanning left to right. -/
def replaceMoji : List Char → List Char
  | 'â' :: '€' :: '™' :: cs => '\'' :: replaceMoji cs
  | c :: cs => c :: replaceMoji cs
  | [] => []

/-- Model of `re.sub(r"[.,]", ' ', s)` on one character: a period or a
comma becomes a space. -/
def dotToSp (c : Char) : Char :=
  if c = '.' ∨ c = ',' then ' ' else c

/-- Embedding of `normalise_name` (src/matching/normalise.py).  The
`titles` set is modelled as a list used only through membership.  Steps,
in source order: empty guard; diacritics stripping; mojibake-apostrophe
replacement; `[.,]` to space; whitespace collapse, strip, lowercase;
removal of title tokens; and finally the comma branch, which tests the
ORIGINAL input and, when it fires with at least two non-empty stripped
segments, overwrites everything with `"<seg1> <seg0>"` lowercased and
whitespace-collapsed. -/
def normaliseName (name : List Char) (titles : List (List Char)) : List Char :=
  if name = [] then []
  else
    let s1 := replaceMoji (stripDiacritics name)
    let s2 := s1.map dotToSp
    let s3 := lowerL (pyStrip (collapseWs s2))
    let s4 := joinSp ((pySplitChar ' ' s3).filter (fun t => !titles.contains t))
    if name.contains ',' then
      let parts := ((pySplitChar ',' name).map pyStrip).filter (fun p => !p.isEmpty)
      if 2 ≤ parts.length then
        pyStrip (collapseWs (lowerL (parts.getD 1 []) ++ ' ' :: lowerL (parts.getD 0 [])))
      else s4
    else s4

/-- Score breakdown of `score_pair` (src/matching/matcher.py). -/
structure Breakdown where
  lastExact : Int
  firstSim : Rat
  aliasBonus : Int
deriving DecidableEq

/-- Model of Python `int()` applied to a float: truncation toward zero. -/
def pyInt (q : Rat) : Int :=
  if 0 ≤ q then ⌊q⌋ else ⌈q⌉

/-- Embedding of `score_pair` (src/matching/matcher.py).  The parameter
`wr` stands for `rapidfuzz.fuzz.WRatio` on first-name tokens; its float
arithmetic is modelled with exact rationals. -/
def scorePair (wr : List Char → List Char → Rat)
    (insNorm donorNorm : List Char) (donorAliasFirsts : List (List Char)) :
    Int × Breakdown :=
  let insF := (splitFirstLast insNorm).1
  let insL := (splitFirstLast insNorm).2
  let dnF := (splitFirstLast donorNorm).1
  let dnL := (splitFirstLast donorNorm).2
  let lastExact : Int := (if insL = dnL then 1 else 0) * 100
  let firstSim : Rat := wr insF dnF
  let aliasBonus : Int := if insF ∈ donorAliasFirsts then 10 else 0
  let overall : Int := pyInt (0.55 * (lastExact : Rat) + 0.25 * firstSim + (aliasBonus : Rat))
  (overall, ⟨lastExact, firstSim, aliasBonus⟩)

/-- Embedding of `token_firsts` (src/matching/matcher.py): the first
token plus its nickname expansions.  The Python `set` of variants is
modelled as a list; only membership in it is ever observed. -/
def tokenFirsts (name : List Char) (nick : List (List Char × List (List Char))) :
    List (List Char) :=
  if name = [] then []
  else
    match wsSplit name with
    | [] => []
    | first :: _ => first :: (List.lookup first nick).getD []

/-- One donor roster row: `donor_id` and `aliases` are optional,
`name` is required, mirroring the DataFrame columns the matcher reads. -/
structure DonorRow where
  donorId : Option (List Char)
  name : List Char
  aliases : Option (List Char)
deriving DecidableEq

/-- A donor after the matcher's preprocessing: normalised name and the
`alias_firsts` list (Python: a set; modelled as a list, observed only
through membership). -/
structure PrepDonor where
  donorId : Option (List Char)
  name : List Char
  nameNorm : List Char
  aliasFirsts : List (List Char)
deriving DecidableEq

/-- Embedding of the donor preparation in `match_transactions_to_donors`
(src/matching/matcher.py): normalise the name; split `aliases` on `;`,
strip, drop empties, lowercase; and append the nickname expansions of the
first token of the normalised name. -/
def prepDonor (titles : List (List Char)) (nick : List (List Char × List (List Char)))
    (d : DonorRow) : PrepDonor :=
  let nameNorm := normaliseName d.name titles
  let manual := ((pySplitChar ';' (d.aliases.getD [])).filter
      (fun a => !(pyStrip a).isEmpty)).map (fun a => lowerL (pyStrip a))
  let firstTok := match wsSplit nameNorm with | [] => [] | t :: _ => t
  ⟨d.donorId, d.name, nameNorm, manual ++ tokenFirsts firstTok nick⟩

/-- One transaction row as consumed by the matcher (fields read with
`t.get(...)`, hence optional, except `insider_name` which the code
indexes directly). -/
structure TxRow where
  txId : Option (List Char)
  insiderName : List Char
  issuer : Option (List Char)
  dateTx : Option (List Char)
  nature : Option (List Char)
  security : Option (List Char)
  qtyOrValue : Option (List Char)
  unitOrExercisePrice : Option (List Char)
deriving DecidableEq

/-- Embedding of the `Thresholds` dataclass (src/matching/matcher.py). -/
structure Thresholds where
  high : Int
  review : Int
deriving DecidableEq

/-- Confidence tier of a match result. -/
inductive MatchStatus where
  | likely
  | review
  | low
deriving DecidableEq

/-- Embedding of the tiering chain in `match_transactions_to_donors`:
`likely` if the score reaches `high`, else `review` if it reaches
`review`, else `low`. -/
def statusOf (th : Thresholds) (s : Int) : MatchStatus :=
  if th.high ≤ s then .likely
  else if th.review ≤ s then .review
  else .low

/-- Overall score of one (transaction, donor) pair as used by the
selection loop. -/
def donorScore (wr : List Char → List Char → Rat) (insNorm : List Char)
    (d : PrepDonor) : Int :=
  (scorePair wr insNorm d.nameNorm d.aliasFirsts).1

/-- Embedding of the matcher's inner loop (src/matching/matcher.py,
`for _, d in donors.iterrows(): ... if s > best_score: ...`): running
best score, best donor and best breakdown, updated only on a strict
improvement. -/
def selLoop (wr : List Char → List Char → Rat) (insNorm : List Char) :
    List PrepDonor → Int → Option PrepDonor → Option Breakdown →
    Int × Option PrepDonor × Option Breakdown
  | [], bs, b, bb => (bs, b, bb)
  | d :: ds, bs, b, bb =>
    let sb := scorePair wr insNorm d.nameNorm d.aliasFirsts
    if bs < sb.1 then selLoop wr insNorm ds sb.1 (some d) (some sb.2)
    else selLoop wr insNorm ds bs b bb

/-- The selection loop started from `best_score = -1`, `best = None`. -/
def selectBest (wr : List Char → List Char → Rat) (insNorm : List Char)
    (ds : List PrepDonor) : Int × Option PrepDonor × Option Breakdown :=
  selLoop wr insNorm ds (-1) none none

/-- One output row of `match_transactions_to_donors`. -/
structure MatchRow where
  txId : Option (List Char)
  insiderName : List Char
  insiderNorm : List Char
  donorId : Option (List Char)
  donorName : Option (List Char)
  score : Int
  status : MatchStatus
  issuer : Option (List Char)
  dateTx : Option (List Char)
  nature : Option (List Char)
  security : Option (List Char)
  qtyOrValue : Option (List Char)
  breakdown : Option Breakdown
  unitOrExercisePrice : Option (List Char)
deriving DecidableEq

/-- Embedding of `match_transactions_to_donors` (src/matching/matcher.py):
prepare every donor, normalise every transaction's insider name, run the
selection loop for each transaction, and build the result row. -/
def matchTransactions (wr : List Char → List Char → Rat)
    (titles : List (List Char)) (nick : List (List Char × List (List Char)))
    (th : Thresholds) (txs : List TxRow) (donors : List DonorRow) : List MatchRow :=
  let pds := donors.map (prepDonor titles nick)
  txs.map (fun t =>
    let insNorm := normaliseName t.insiderName titles
    let r := selLoop wr insNorm pds (-1) none none
    { txId := t.txId
      insiderName := t.insiderName
      insiderNorm := insNorm
      donorId := r.2.1.bind (fun d => d.donorId)
      donorName := r.2.1.map (fun d => d.name)
      score := r.1
      status := statusOf th r.1
      issuer := t.issuer
      dateTx := t.dateTx
      nature := t.nature
      security := t.security
      qtyOrValue := t.qtyOrValue
      breakdown := r.2.2
      unitOrExercisePrice := t.unitOrExercisePrice })

/-- Test whether a sequence occurs as a contiguous substring, modelling
Python's `in` on strings. -/
def containsSeq (p : List Char) : List Char → Bool
  | [] => p.isPrefixOf []
  | c :: cs => p.isPrefixOf (c :: cs) || containsSeq p cs

/-- Scanner context of `parse_sedi_pdf` (src/parsers/sedi_weekly_pdf.py):
the `issuer`, `insider`, `relationship` variables, re-initialised to
`None` at the start of every page. -/
structure Ctx where
  issuer : Option (List Char)
  insider : Option (List Char)
  rel : Option (List Char)
deriving DecidableEq

/-- One record appended by `parse_sedi_pdf`. -/
structure SediRec where
  txId : List Char
  insiderName : Option (List Char)
  issuer : Option (List Char)
  relationship : Option (List Char)
  dateTx : Option (List Char)
  nature : Option (List Char)
  security : Option (List Char)
  qtyOrValue : Option (List Char)
deriving DecidableEq

/-- Embedding of `ISSUER_RE = ^Issuer:\s*(.+)$` with `re.IGNORECASE`,
followed by `.group(1).strip()`: case-insensitive prefix `Issuer:`, a
non-empty remainder, whose stripped form is the value.  (Consuming
leading whitespace by `\s*` and then stripping the group equals
stripping the whole remainder.) -/
def issuerOf (line : List Char) : Option (List Char) :=
  if (strL "issuer:").isPrefixOf (lowerL line) ∧ line.drop 7 ≠ [] then
    some (pyStrip (line.drop 7))
  else none

/-- Embedding of `INSIDER_RE = ^Insider:\s*(.+)$` with `re.IGNORECASE`,
followed by `.group(1).strip()`. -/
def insiderOf (line : List Char) : Option (List Char) :=
  if (strL "insider:").isPrefixOf (lowerL line) ∧ line.drop 8 ≠ [] then
    some (pyStrip (line.drop 8))
  else none

/-- Embedding of `REL_RE = ^Insider[â€™']s Relationship to Issuer:\s*(.+)$`
with `re.IGNORECASE` (the source literally holds the mojibake characters
`â`, `€`, `™` inside the character class), followed by
`.group(1).strip()`. -/
def relOf (line : List Char) : Option (List Char) :=
  let ll := lowerL line
  if (strL "insider").isPrefixOf ll ∧
      (ll.get? 7 = some 'â' ∨ ll.get? 7 = some '€' ∨ ll.get? 7 = some '™' ∨
        ll.get? 7 = some '\'') ∧
      (strL "s relationship to issuer:").isPrefixOf (ll.drop 8) ∧
      line.drop 33 ≠ [] then
    some (pyStrip (line.drop 33))
  else none

/-- True when the list starts with a whitespace character. -/
def headIsWs : List Char → Bool
  | c :: _ => isWs c
  | [] => false

/-- Embedding of `TXLINE_RE = ^(\d{6,9})\s+(.*)$`: a leading run of 6–9
digits followed by at least one whitespace character; yields the digit
run and the remainder after the whitespace run.  (A longer digit run
cannot match: the regex would then face a tenth digit where `\s` is
required, for every backtracking choice.) -/
def txOf (line : List Char) : Option (List Char × List Char) :=
  let ds := line.takeWhile Char.isDigit
  let rest0 := line.dropWhile Char.isDigit
  if 6 ≤ ds.length ∧ ds.length ≤ 9 ∧ headIsWs rest0 = true then
    some (ds, rest0.dropWhile isWs)
  else none

/-- Test for `DATE_RE = (20\d{2}-\d{2}-\d{2})` anchored at the head of
the list. -/
def isoPrefix : List Char → Bool
  | c1 :: c2 :: c3 :: c4 :: c5 :: c6 :: c7 :: c8 :: c9 :: c10 :: _ =>
    c1 = '2' && c2 = '0' && c3.isDigit && c4.isDigit && c5 = '-' &&
      c6.isDigit && c7.isDigit && c8 = '-' && c9.isDigit && c10.isDigit
  | _ => false

/-- Embedding of `DATE_RE.search(rest)`: the leftmost match of
`20\d{2}-\d{2}-\d{2}`, as the matched ten characters. -/
def dateSearch : List Char → Option (List Char)
  | [] => none
  | c :: cs =>
    if isoPrefix (c :: cs) then some ((c :: cs).take 10)
    else dateSearch cs

/-- Greedy matcher for `(?:,\d{3})+` at the head of the list: as many
`,ddd` groups as possible (possibly none). -/
def commaGroups : List Char → List Char
  | ',' :: a :: b :: c :: t =>
    if a.isDigit && b.isDigit && c.isDigit then ',' :: a :: b :: c :: commaGroups t
    else []
  | _ => []

/-- Matcher for `\d{1,3}(?:,\d{3})+` anchored at the head: the full
leading digit run must have length 1–3 (a longer run leaves a digit
where `,` is required, for every backtracking choice), followed by at
least one `,ddd` group. -/
def qtyCoreAt (l : List Char) : Option (List Char) :=
  let ds := l.takeWhile Char.isDigit
  if 1 ≤ ds.length ∧ ds.length ≤ 3 then
    let gs := commaGroups (l.drop ds.length)
    if gs = [] then none else some (ds ++ gs)
  else none

/-- Matcher for `[+-]?\d{1,3}(?:,\d{3})+` anchored at the head.  (If the
optional sign is present but the digits fail, backtracking to the
sign-less branch also fails, since a digit is then required where the
sign stands.) -/
def qtyAt : List Char → Option (List Char)
  | [] => none
  | c :: cs =>
    if c = '+' ∨ c = '-' then (qtyCoreAt cs).map (fun g => c :: g)
    else qtyCoreAt (c :: cs)

/-- Embedding of `re.search(r"([+-]?\d{1,3}(?:,\d{3})+)", rest)`: the
leftmost match. -/
def qtySearch : List Char → Option (List Char)
  | [] => none
  | c :: cs =>
    match qtyAt (c :: cs) with
    | some g => some g
    | none => qtySearch cs

/-- Test for `\d{2}\s*-\s*[^\d]+$` anchored at the head of the list and
reaching its end: two digits, optional whitespace, `-`, then a non-empty
digit-free tail (whitespace characters are themselves digit-free, so the
`\s*` / `[^\d]+` split always exists exactly when the tail after `-` is
non-empty and digit-free). -/
def natCondAt : List Char → Bool
  | a :: b :: t =>
    a.isDigit && b.isDigit &&
      (match t.dropWhile isWs with
       | '-' :: v => !v.isEmpty && v.all (fun c => !c.isDigit)
       | _ => false)
  | _ => false

/-- Embedding of `re.search(r"(\d{2}\s*-\s*[^\d]+)$", rest)` followed by
`.group(1).strip()`: the leftmost position whose entire suffix matches;
the group is that whole suffix, stripped. -/
def natSearch : List Char → Option (List Char)
  | [] => none
  | c :: cs =>
    if natCondAt (c :: cs) then some (pyStrip (c :: cs))
    else natSearch cs

/-- Embedding of the security heuristic in `parse_sedi_pdf`: the first
of `Common Shares`, `Warrants`, `Options` contained in the remainder. -/
def secOf (rest : List Char) : Option (List Char) :=
  if containsSeq (strL "Common Shares") rest then some (strL "Common Shares")
  else if containsSeq (strL "Warrants") rest then some (strL "Warrants")
  else if containsSeq (strL "Options") rest then some (strL "Options")
  else none

/-- Truthiness of the `insider` variable in `if m_tx and insider:`:
a set, non-empty string. -/
def optTruthy : Option (List Char) → Bool
  | some s => !s.isEmpty
  | none => false

/-- The record appended for one recognised transaction line, given the
current scanner context. -/
def buildRec (ctx : Ctx) (tid rest : List Char) : SediRec :=
  { txId := tid
    insiderName := ctx.insider
    issuer := ctx.issuer
    relationship := ctx.rel
    dateTx := dateSearch rest
    nature := natSearch rest
    security := secOf rest
    qtyOrValue := qtySearch rest }

/-- Embedding of the per-line scan of `parse_sedi_pdf`
(src/parsers/sedi_weekly_pdf.py): strip the raw line, skip it when
empty, otherwise test `ISSUER_RE`, `INSIDER_RE`, `REL_RE`, `TXLINE_RE`
in source order; an insider header also resets the relationship; a
transaction line is emitted only when `insider` is truthy. -/
def pageLoop : Ctx → List (List Char) → List SediRec
  | _, [] => []
  | ctx, raw :: rest =>
    let line := pyStrip raw
    if line = [] then pageLoop ctx rest
    else
      match issuerOf line with
      | some v => pageLoop ⟨some v, ctx.insider, ctx.rel⟩ rest
      | none =>
        match insiderOf line with
        | some v => pageLoop ⟨ctx.issuer, some v, none⟩ rest
        | none =>
          match relOf line with
          | some v => pageLoop ⟨ctx.issuer, ctx.insider, some v⟩ rest
          | none =>
            match txOf line with
            | some tr =>
              if optTruthy ctx.insider then
                buildRec ctx tr.1 tr.2 :: pageLoop ctx rest
              else pageLoop ctx rest
            | none => pageLoop ctx rest

/-- One page's records: the scan started from the all-`None` context,
exactly as `parse_sedi_pdf` re-initialises `issuer`, `insider`,
`relationship` inside the page loop. -/
def parsePage (p : List (List Char)) : List SediRec :=
  pageLoop ⟨none, none, none⟩ p

/-- Deduplication key of `drop_duplicates(subset=['tx_id',
'insider_name', 'issuer'])`. -/
def recKey (r : SediRec) : List Char × Option (List Char) × Option (List Char) :=
  (r.txId, r.insiderName, r.issuer)

/-- Keep-first deduplication on the `(tx_id, insider_name, issuer)`
key. -/
def dedupGo (seen : List (List Char × Option (List Char) × Option (List Char))) :
    List SediRec → List SediRec
  | [] => []
  | r :: t =>
    if seen.contains (recKey r) then dedupGo seen t
    else r :: dedupGo (recKey r :: seen) t

/-- Embedding of `parse_sedi_pdf` after the I/O boundary: the input is
the list of pages, each page its list of raw text lines (a page whose
extracted text is empty contributes an empty line list); records of all
pages are concatenated and then deduplicated keeping first
occurrences. -/
def parseSedi (pages : List (List (List Char))) : List SediRec :=
  dedupGo [] (pages.map parsePage).flatten

theorem pyInt_eq_floor {q : Rat} (h : 0 ≤ q) : pyInt q = ⌊q⌋ := if_pos h

/-- Claim C1: for every (transaction, donor) pair, the matcher's overall
score equals `floor(0.55 * last_exact + 0.25 * first_ratio + alias_bonus)`,
where `last_exact` is 100 exactly when the normalised last names are
equal and `alias_bonus` is 10 exactly when the transaction's normalised
first name is a member of the donor's `alias_firsts` set.  The fuzzy
first-name similarity `wr` is non-negative per its `[0,100]` contract. -/
theorem claim1_overall_formula (wr : List Char → List Char → Rat)
    (insNorm donorNorm : List Char) (al : List (List Char))
    (h : 0 ≤ wr (splitFirstLast insNorm).1 (splitFirstLast donorNorm).1) :
    (scorePair wr insNorm donorNorm al).1 =
      ⌊(0.55 : Rat) *
          (if (splitFirstLast insNorm).2 = (splitFirstLast donorNorm).2 then (100 : Rat) else 0) +
        (0.25 : Rat) * wr (splitFirstLast insNorm).1 (splitFirstLast donorNorm).1 +
        (if (splitFirstLast insNorm).1 ∈ al then (10 : Rat) else 0)⌋ := by
  have h4 : (0 : Rat) ≤ (0.25 : Rat) * wr (splitFirstLast insNorm).1 (splitFirstLast donorNorm).1 :=
    mul_nonneg (by norm_num) h
  simp only [scorePair, pyInt]
  rcases em ((splitFirstLast insNorm).2 = (splitFirstLast donorNorm).2) with hL | hL <;>
    rcases em ((splitFirstLast insNorm).1 ∈ al) with hA | hA <;>
      simp only [if_pos, if_neg, hL, hA, if_true, if_false] <;>
        rw [if_pos (by push_cast; linarith)] <;> congr 1 <;> push_cast <;> ring

theorem claim1_overall_formula_witness :
    (scorePair (fun _ _ => (60 : Rat)) (strL "ann smith") (strL "anne smith") [strL "ann"]).1 =
      ⌊(0.55 : Rat) *
          (if (splitFirstLast (strL "ann smith")).2 = (splitFirstLast (strL "anne smith")).2
            then (100 : Rat) else 0) +
        (0.25 : Rat) *
          (fun _ _ => (60 : Rat)) (splitFirstLast (strL "ann smith")).1
            (splitFirstLast (strL "anne smith")).1 +
        (if (splitFirstLast (strL "ann smith")).1 ∈ [strL "ann"] then (10 : Rat) else 0)⌋ :=
  claim1_overall_formula (fun _ _ => (60 : Rat)) (strL "ann smith") (strL "anne smith")
    [strL "ann"] (by decide)

/-- Claim C5: for every (transaction, donor) pair scored by the matcher,
the overall score is an integer with `0 ≤ overall ≤ 90`, given the
`[0,100]` contract of the fuzzy first-name similarity. -/
theorem claim5_score_bounds (wr : List Char → List Char → Rat)
    (insNorm donorNorm : List Char) (al : List (List Char))
    (h0 : 0 ≤ wr (splitFirstLast insNorm).1 (splitFirstLast donorNorm).1)
    (h1 : wr (splitFirstLast insNorm).1 (splitFirstLast donorNorm).1 ≤ 100) :
    0 ≤ (scorePair wr insNorm donorNorm al).1 ∧ (scorePair wr insNorm donorNorm al).1 ≤ 90 := by
  have h4 : (0 : Rat) ≤ (0.25 : Rat) * wr (splitFirstLast insNorm).1 (splitFirstLast donorNorm).1 :=
    mul_nonneg (by norm_num) h0
  have h5 : (0.25 : Rat) * wr (splitFirstLast insNorm).1 (splitFirstLast donorNorm).1 ≤ 25 := by
    nlinarith
  simp only [scorePair, pyInt]
  rcases em ((splitFirstLast insNorm).2 = (splitFirstLast donorNorm).2) with hL | hL <;>
    rcases em ((splitFirstLast insNorm).1 ∈ al) with hA | hA <;>
      simp only [if_pos, if_neg, hL, hA, if_true, if_false] <;>
        rw [if_pos (by push_cast; linarith)] <;>
          refine ⟨Int.le_floor.mpr (by push_cast; linarith), ?_⟩ <;>
            refine le_trans (Int.floor_le_floor (show _ ≤ (90 : Rat) by push_cast; linarith)) ?_ <;>
              norm_num

theorem claim5_score_bounds_witness :
    0 ≤ (scorePair (fun _ _ => (87 : Rat)) (strL "jo roe") (strL "joe roe") []).1 ∧
      (scorePair (fun _ _ => (87 : Rat)) (strL "jo roe") (strL "joe roe") []).1 ≤ 90 :=
  claim5_score_bounds (fun _ _ => (87 : Rat)) (strL "jo roe") (strL "joe roe") []
    (by decide) (by decide)

/-- Claim C6: whenever the normalised last names are exactly equal, the
overall score is at least `55 + alias_bonus`, whatever the first-name
similarity (non-negative per its contract) may be. -/
theorem claim6_exact_last_floor (wr : List Char → List Char → Rat)
    (insNorm donorNorm : List Char) (al : List (List Char))
    (hL : (splitFirstLast insNorm).2 = (splitFirstLast donorNorm).2)
    (h0 : 0 ≤ wr (splitFirstLast insNorm).1 (splitFirstLast donorNorm).1) :
    55 + (scorePair wr insNorm donorNorm al).2.aliasBonus ≤
      (scorePair wr insNorm donorNorm al).1 := by
  have h4 : (0 : Rat) ≤ (0.25 : Rat) * wr (splitFirstLast insNorm).1 (splitFirstLast donorNorm).1 :=
    mul_nonneg (by norm_num) h0
  simp only [scorePair, pyInt]
  rcases em ((splitFirstLast insNorm).1 ∈ al) with hA | hA <;>
    simp only [if_pos, if_neg, hL, hA, if_true, if_false] <;>
      rw [if_pos (by push_cast; linarith)] <;>
        exact Int.le_floor.mpr (by push_cast; linarith)

theorem claim6_exact_last_floor_witness :
    55 + (scorePair (fun _ _ => (0 : Rat)) (strL "kim doe") (strL "jan doe")
        [strL "kim"]).2.aliasBonus ≤
      (scorePair (fun _ _ => (0 : Rat)) (strL "kim doe") (strL "jan doe") [strL "kim"]).1 :=
  claim6_exact_last_floor (fun _ _ => (0 : Rat)) (strL "kim doe") (strL "jan doe")
    [strL "kim"] (by decide) (by decide)

/-- Claim C2: whenever the original input contains a comma and splits on
commas into at least two non-empty (stripped) segments, `normalise_name`
returns `"<segment[1]> <segment[0]>"` lowercased and
whitespace-collapsed; the result does not depend on the title set
(honorific stripping is skipped on this path); and in particular
`normalise_name("Smith, John", {})` is `"john smith"`. -/
theorem claim2_comma_reorder (name : List Char) (titles titles2 : List (List Char))
    (h1 : name.contains ',' = true)
    (h2 : 2 ≤ (((pySplitChar ',' name).map pyStrip).filter (fun p => !p.isEmpty)).length) :
    (normaliseName name titles =
      pyStrip (collapseWs
        (lowerL ((((pySplitChar ',' name).map pyStrip).filter (fun p => !p.isEmpty)).getD 1 []) ++
          ' ' ::
            lowerL ((((pySplitChar ',' name).map pyStrip).filter (fun p => !p.isEmpty)).getD 0 [])))) ∧
    normaliseName name titles = normaliseName name titles2 ∧
    normaliseName (strL "Smith, John") [] = strL "john smith" := by
  have hne : name ≠ [] := by
    intro h
    subst h
    exact absurd h1 (by decide)
  have key : ∀ ts : List (List Char), normaliseName name ts =
      pyStrip (collapseWs
        (lowerL ((((pySplitChar ',' name).map pyStrip).filter (fun p => !p.isEmpty)).getD 1 []) ++
          ' ' ::
            lowerL ((((pySplitChar ',' name).map pyStrip).filter (fun p => !p.isEmpty)).getD 0 []))) := by
    intro ts
    simp only [normaliseName]
    rw [if_neg hne, if_pos h1, if_pos h2]
  exact ⟨key titles, (key titles).trans (key titles2).symm, by decide⟩

theorem claim2_comma_reorder_witness :
    (normaliseName (strL "Smith, John") [] =
      pyStrip (collapseWs
        (lowerL ((((pySplitChar ',' (strL "Smith, John")).map pyStrip).filter
            (fun p => !p.isEmpty)).getD 1 []) ++
          ' ' ::
            lowerL ((((pySplitChar ',' (strL "Smith, John")).map pyStrip).filter
              (fun p => !p.isEmpty)).getD 0 [])))) ∧
    normaliseName (strL "Smith, John") [] = normaliseName (strL "Smith, John") [strL "jr"] ∧
    normaliseName (strL "Smith, John") [] = strL "john smith" :=
  claim2_comma_reorder (strL "Smith, John") [] [strL "jr"] (by decide) (by decide)

/-- Claim C3: matching a non-empty transaction list against an empty
donor set yields one row per transaction with null donor fields, score
`-1`, and status `low` (the thresholds exceed `-1`, as the spec's
"`-1` below any threshold" presumes). -/
theorem claim3_empty_donors (wr : List Char → List Char → Rat)
    (titles : List (List Char)) (nick : List (List Char × List (List Char)))
    (th : Thresholds) (txs : List TxRow) (hne : txs ≠ [])
    (hRev : -1 < th.review) (hHigh : -1 < th.high) :
    (matchTransactions wr titles nick th txs []).length = txs.length ∧
    ∀ r ∈ matchTransactions wr titles nick th txs [],
      r.donorId = none ∧ r.donorName = none ∧ r.score = -1 ∧ r.status = MatchStatus.low := by
  constructor
  · simp [matchTransactions]
  · intro r hmem
    simp only [matchTransactions, List.map_nil, List.mem_map] at hmem
    obtain ⟨t, ht, rfl⟩ := hmem
    refine ⟨rfl, rfl, rfl, ?_⟩
    show statusOf th (selLoop wr (normaliseName t.insiderName titles) [] (-1) none none).1 =
      MatchStatus.low
    show statusOf th (-1) = MatchStatus.low
    simp only [statusOf]
    rw [if_neg (by omega), if_neg (by omega)]

def emptyDonorsRow : MatchRow :=
  { txId := none
    insiderName := strL "Ann"
    insiderNorm := strL "ann"
    donorId := none
    donorName := none
    score := -1
    status := MatchStatus.low
    issuer := none
    dateTx := none
    nature := none
    security := none
    qtyOrValue := none
    breakdown := none
    unitOrExercisePrice := none }

theorem claim3_empty_donors_witness :
    (matchTransactions (fun _ _ => (0 : Rat)) [] [] ⟨90, 80⟩
        [⟨none, strL "Ann", none, none, none, none, none, none⟩] []).length = 1 ∧
    (emptyDonorsRow.donorId = none ∧ emptyDonorsRow.donorName = none ∧
      emptyDonorsRow.score = -1 ∧ emptyDonorsRow.status = MatchStatus.low) :=
  ⟨(claim3_empty_donors (fun _ _ => (0 : Rat)) [] [] ⟨90, 80⟩
      [⟨none, strL "Ann", none, none, none, none, none, none⟩] (by decide)
      (by decide) (by decide)).1,
    (claim3_empty_donors (fun _ _ => (0 : Rat)) [] [] ⟨90, 80⟩
      [⟨none, strL "Ann", none, none, none, none, none, none⟩] (by decide)
      (by decide) (by decide)).2 emptyDonorsRow (by decide)⟩

theorem scorePair_nonneg (wr : List Char → List Char → Rat)
    (insNorm donorNorm : List Char) (al : List (List Char))
    (h0 : 0 ≤ wr (splitFirstLast insNorm).1 (splitFirstLast donorNorm).1) :
    0 ≤ (scorePair wr insNorm donorNorm al).1 := by
  have h4 : (0 : Rat) ≤ (0.25 : Rat) * wr (splitFirstLast insNorm).1 (splitFirstLast donorNorm).1 :=
    mul_nonneg (by norm_num) h0
  simp only [scorePair, pyInt]
  rcases em ((splitFirstLast insNorm).2 = (splitFirstLast donorNorm).2) with hL | hL <;>
    rcases em ((splitFirstLast insNorm).1 ∈ al) with hA | hA <;>
      simp only [if_pos, if_neg, hL, hA, if_true, if_false] <;>
        rw [if_pos (by push_cast; linarith)] <;>
          exact Int.le_floor.mpr (by push_cast; linarith)

theorem selLoop_const (wr : List Char → List Char → Rat) (insNorm : List Char) :
    ∀ (ds : List PrepDonor) (bs : Int) (b : Option PrepDonor) (bb : Option Breakdown),
      (∀ d ∈ ds, donorScore wr insNorm d ≤ bs) →
      selLoop wr insNorm ds bs b bb = (bs, b, bb) := by
  intro ds
  induction ds with
  | nil => intro bs b bb _; rfl
  | cons d t ih =>
    intro bs b bb h
    simp only [selLoop]
    rw [if_neg (not_lt.mpr
      (show (scorePair wr insNorm d.nameNorm d.aliasFirsts).1 ≤ bs from
        h d (List.mem_cons_self d t)))]
    exact ih bs b bb (fun x hx => h x (List.mem_cons_of_mem _ hx))

theorem selLoop_argmax (wr : List Char → List Char → Rat) (insNorm : List Char) :
    ∀ (ds : List PrepDonor) (bs : Int) (b : Option PrepDonor) (bb : Option Breakdown)
      (i : Nat) (hi : i < ds.length),
      bs < donorScore wr insNorm (ds.get ⟨i, hi⟩) →
      (∀ j (hj : j < ds.length),
        donorScore wr insNorm (ds.get ⟨j, hj⟩) ≤ donorScore wr insNorm (ds.get ⟨i, hi⟩)) →
      (∀ j (hj : j < ds.length), j < i →
        donorScore wr insNorm (ds.get ⟨j, hj⟩) < donorScore wr insNorm (ds.get ⟨i, hi⟩)) →
      selLoop wr insNorm ds bs b bb =
        (donorScore wr insNorm (ds.get ⟨i, hi⟩), some (ds.get ⟨i, hi⟩),
          some (scorePair wr insNorm (ds.get ⟨i, hi⟩).nameNorm (ds.get ⟨i, hi⟩).aliasFirsts).2) := by
  intro ds
  induction ds with
  | nil => intro bs b bb i hi; exact absurd hi (by simp)
  | cons d t ih =>
    intro bs b bb i hi hbs hmax hfirst
    cases i with
    | zero =>
      simp only [List.get] at hbs hmax hfirst ⊢
      simp only [selLoop]
      rw [if_pos (show bs < (scorePair wr insNorm d.nameNorm d.aliasFirsts).1 from hbs)]
      exact selLoop_const wr insNorm t _ _ _ (fun x hx => by
        obtain ⟨k, rfl⟩ := List.mem_iff_get.mp hx
        exact hmax (k.val + 1) (Nat.succ_lt_succ k.isLt))
    | succ i' =>
      have hi' : i' < t.length := Nat.lt_of_succ_lt_succ hi
      have hget : (d :: t).get ⟨i' + 1, hi⟩ = t.get ⟨i', hi'⟩ := rfl
      have hd : donorScore wr insNorm d < donorScore wr insNorm (t.get ⟨i', hi'⟩) := by
        have := hfirst 0 (Nat.succ_pos _) (Nat.succ_pos _)
        simpa [hget] using this
      simp only [hget] at hbs hmax hfirst ⊢
      simp only [selLoop]
      split_ifs with hc
      · exact ih _ _ _ i' hi' hd
          (fun j hj => hmax (j + 1) (Nat.succ_lt_succ hj))
          (fun j hj hji => hfirst (j + 1) (Nat.succ_lt_succ hj) (Nat.succ_lt_succ hji))
      · exact ih _ _ _ i' hi' hbs
          (fun j hj => hmax (j + 1) (Nat.succ_lt_succ hj))
          (fun j hj hji => hfirst (j + 1) (Nat.succ_lt_succ hj) (Nat.succ_lt_succ hji))

/-- Claim C4: when two donors at positions `i < j` of the donor sequence
score equally and maximally against a transaction, and `i` is the
earliest position attaining that maximum (which the two-way-tie scenario
entails), the matcher's selection loop — strict `>` against the running
maximum — returns the donor at the EARLIER position `i` with that score.
The fuzzy similarity is non-negative per its `[0,100]` contract. -/
theorem claim4_tie_break (wr : List Char → List Char → Rat)
    (hwr : ∀ a b, 0 ≤ wr a b) (insNorm : List Char) (ds : List PrepDonor)
    (i j : Nat) (hi : i < ds.length) (hj : j < ds.length) (hij : i < j)
    (heq : donorScore wr insNorm (ds.get ⟨i, hi⟩) = donorScore wr insNorm (ds.get ⟨j, hj⟩))
    (hmax : ∀ k (hk : k < ds.length),
      donorScore wr insNorm (ds.get ⟨k, hk⟩) ≤ donorScore wr insNorm (ds.get ⟨i, hi⟩))
    (hfirst : ∀ k (hk : k < ds.length), k < i →
      donorScore wr insNorm (ds.get ⟨k, hk⟩) < donorScore wr insNorm (ds.get ⟨i, hi⟩)) :
    (selectBest wr insNorm ds).1 = donorScore wr insNorm (ds.get ⟨i, hi⟩) ∧
    (selectBest wr insNorm ds).2.1 = some (ds.get ⟨i, hi⟩) := by
  have hpos : (-1 : Int) < donorScore wr insNorm (ds.get ⟨i, hi⟩) :=
    lt_of_lt_of_le (by norm_num) (scorePair_nonneg wr insNorm _ _ (hwr _ _))
  rw [selectBest, selLoop_argmax wr insNorm ds (-1) none none i hi hpos hmax hfirst]
  exact ⟨rfl, rfl⟩

theorem ballLTtwo {P : (k : Nat) → k < 2 → Prop}
    (h0 : P 0 (by omega)) (h1 : P 1 (by omega)) : ∀ k (hk : k < 2), P k hk := by
  intro k hk
  interval_cases k
  · exact h0
  · exact h1

def c4DonorA : PrepDonor := ⟨some (strL "1"), strL "Ann Roe", strL "ann roe", []⟩

def c4DonorB : PrepDonor := ⟨some (strL "2"), strL "Ann Roe", strL "ann roe", []⟩

theorem claim4_tie_break_witness :
    (selectBest (fun _ _ => (0 : Rat)) (strL "kay roe") [c4DonorA, c4DonorB]).1 =
      donorScore (fun _ _ => (0 : Rat)) (strL "kay roe")
        ([c4DonorA, c4DonorB].get ⟨0, by decide⟩) ∧
    (selectBest (fun _ _ => (0 : Rat)) (strL "kay roe") [c4DonorA, c4DonorB]).2.1 =
      some ([c4DonorA, c4DonorB].get ⟨0, by decide⟩) :=
  claim4_tie_break (fun _ _ => (0 : Rat)) (fun _ _ => le_refl 0) (strL "kay roe")
    [c4DonorA, c4DonorB] 0 1 (by decide) (by decide) (by decide) rfl
    (ballLTtwo (le_refl _) (le_refl _))
    (ballLTtwo (fun h => absurd h (Nat.not_lt_zero 0)) (fun h => absurd h (by omega)))

/-- Property stating that `DATE_RE` matches at offset `i` of the list. -/
abbrev isoAt (l : List Char) (i : Nat) : Prop :=
  isoPrefix (l.drop i) = true

/-- Test, following the claim's words, for a general ISO `YYYY-MM-DD`
shaped substring (any four-digit year) anchored at the head; this is the
shape the claim asserts is extracted, to be compared with the code's
`20\d{2}-\d{2}-\d{2}`. -/
def isoAnyPrefix : List Char → Bool
  | c1 :: c2 :: c3 :: c4 :: c5 :: c6 :: c7 :: c8 :: c9 :: c10 :: _ =>
    c1.isDigit && c2.isDigit && c3.isDigit && c4.isDigit && c5 = '-' &&
      c6.isDigit && c7.isDigit && c8 = '-' && c9.isDigit && c10.isDigit
  | _ => false

/-- Property stating that a general `YYYY-MM-DD` substring starts at
offset `i`. -/
abbrev isoAnyAt (l : List Char) (i : Nat) : Prop :=
  isoAnyPrefix (l.drop i) = true

theorem dateSearch_some : ∀ (l : List Char) (i : Nat), isoAt l i →
    (∀ j, j < i → ¬ isoAt l j) → dateSearch l = some ((l.drop i).take 10) := by
  intro l
  induction l with
  | nil =>
    intro i hi _
    exact absurd hi (by simp [isoAt, isoPrefix])
  | cons c cs ih =>
    intro i hi hj
    cases i with
    | zero =>
      rw [dateSearch, if_pos (show isoPrefix (c :: cs) = true from hi)]
      rfl
    | succ n =>
      have h0 : ¬ isoAt (c :: cs) 0 := hj 0 (Nat.succ_pos n)
      have h0' : ¬ isoPrefix (c :: cs) = true := h0
      rw [dateSearch, if_neg h0']
      exact ih n hi (fun j hjn => hj (j + 1) (Nat.succ_lt_succ hjn))

theorem dateSearch_none : ∀ l : List Char, (∀ j, ¬ isoAt l j) → dateSearch l = none := by
  intro l
  induction l with
  | nil => intro _; rfl
  | cons c cs ih =>
    intro h
    have h0 : ¬ isoPrefix (c :: cs) = true := h 0
    rw [dateSearch, if_neg h0]
    exact ih (fun j => h (j + 1))

/-- Claim C7 (amended): for every recognised transaction row, `date_tx`
is the substring at the LEFTMOST offset where the code's date pattern
`20\d{2}-\d{2}-\d{2}` (an ISO date whose year begins with `20`) matches
in the remainder after the transaction id, and null when that pattern
matches nowhere.  (The claim's arbitrary `YYYY-MM-DD` is refuted by
`claim7_counterexample`.) -/
theorem claim7_first_date20 (ctx : Ctx) (tid rest : List Char) (i : Nat) :
    (isoAt rest i → (∀ j, j < i → ¬ isoAt rest j) →
      (buildRec ctx tid rest).dateTx = some ((rest.drop i).take 10)) ∧
    ((∀ j, ¬ isoAt rest j) → (buildRec ctx tid rest).dateTx = none) :=
  ⟨fun h1 h2 => dateSearch_some rest i h1 h2,
    fun h => dateSearch_none rest h⟩

theorem claim7_first_date20_witness :
    (buildRec ⟨none, some (strL "Jo"), none⟩ (strL "123456")
        (strL "x2023-05-06 rest")).dateTx =
      some (((strL "x2023-05-06 rest").drop 1).take 10) :=
  (claim7_first_date20 ⟨none, some (strL "Jo"), none⟩ (strL "123456")
    (strL "x2023-05-06 rest") 1).1 (by decide) (by decide)

/-- Counterexample to claim C7 as stated: the line remainder
`"1999-12-31"` contains an ISO `YYYY-MM-DD` substring at its very start,
yet the extractor records a null `date_tx`, because `DATE_RE` only
matches years of the form `20YY`. -/
theorem claim7_counterexample :
    isoAnyAt (strL "1999-12-31") 0 ∧
    (buildRec ⟨none, some (strL "Jo"), none⟩ (strL "123456")
        (strL "1999-12-31")).dateTx = none := by
  exact ⟨by decide, by decide⟩

theorem dedupGo_sub : ∀ (l : List SediRec)
    (seen : List (List Char × Option (List Char) × Option (List Char))) (r : SediRec),
    r ∈ dedupGo seen l → r ∈ l := by
  intro l
  induction l with
  | nil => intro seen r h; exact absurd h (List.not_mem_nil r)
  | cons x t ih =>
    intro seen r h
    simp only [dedupGo] at h
    split_ifs at h with hc
    · exact List.mem_cons_of_mem _ (ih _ _ h)
    · rcases List.mem_cons.mp h with h | h
      · exact h ▸ List.mem_cons_self x t
      · exact List.mem_cons_of_mem _ (ih _ _ h)

theorem srcLift {raw : List Char} {rest : List (List Char)}
    {f : List Char → Option (List Char)} {v : List Char}
    (h : ∃ l ∈ rest, f l = some v) : ∃ l ∈ raw :: rest, f l = some v := by
  obtain ⟨l, hl, he⟩ := h
  exact ⟨l, List.mem_cons_of_mem _ hl, he⟩

/-- Per-page source invariant of the scanner: every emitted record's
insider name is set, and each of the three context fields either came in
with the starting context or was established by a header line of the
scanned lines themselves. -/
theorem pageLoop_src : ∀ (lines : List (List Char)) (ctx : Ctx) (r : SediRec),
    r ∈ pageLoop ctx lines →
    (∃ v, r.insiderName = some v ∧
      (ctx.insider = some v ∨ ∃ l ∈ lines, insiderOf (pyStrip l) = some v)) ∧
    (r.issuer = ctx.issuer ∨
      ∃ v, r.issuer = some v ∧ ∃ l ∈ lines, issuerOf (pyStrip l) = some v) ∧
    (r.relationship = ctx.rel ∨ r.relationship = none ∨
      ∃ v, r.relationship = some v ∧ ∃ l ∈ lines, relOf (pyStrip l) = some v) := by
  intro lines
  induction lines with
  | nil => intro ctx r h; exact absurd h (List.not_mem_nil r)
  | cons raw rest ih =>
    intro ctx r h
    simp only [pageLoop] at h
    by_cases he : pyStrip raw = []
    · rw [if_pos he] at h
      obtain ⟨⟨v, hv, hsrc⟩, hiss, hrel⟩ := ih ctx r h
      refine ⟨⟨v, hv, ?_⟩, ?_, ?_⟩
      · rcases hsrc with hs | hs
        · exact Or.inl hs
        · exact Or.inr (srcLift hs)
      · rcases hiss with hs | ⟨v2, hv2, hs⟩
        · exact Or.inl hs
        · exact Or.inr ⟨v2, hv2, srcLift hs⟩
      · rcases hrel with hs | hs | ⟨v2, hv2, hs⟩
        · exact Or.inl hs
        · exact Or.inr (Or.inl hs)
        · exact Or.inr (Or.inr ⟨v2, hv2, srcLift hs⟩)
    · rw [if_neg he] at h
      cases hIss : issuerOf (pyStrip raw) with
      | some v0 =>
        rw [hIss] at h
        obtain ⟨⟨v, hv, hsrc⟩, hiss, hrel⟩ := ih _ r h
        refine ⟨⟨v, hv, ?_⟩, ?_, ?_⟩
        · rcases hsrc with hs | hs
          · exact Or.inl hs
          · exact Or.inr (srcLift hs)
        · rcases hiss with hs | ⟨v2, hv2, hs⟩
          · exact Or.inr ⟨v0, hs, raw, List.mem_cons_self raw rest, hIss⟩
          · exact Or.inr ⟨v2, hv2, srcLift hs⟩
        · rcases hrel with hs | hs | ⟨v2, hv2, hs⟩
          · exact Or.inl hs
          · exact Or.inr (Or.inl hs)
          · exact Or.inr (Or.inr ⟨v2, hv2, srcLift hs⟩)
      | none =>
        rw [hIss] at h
        cases hIns : insiderOf (pyStrip raw) with
        | some v0 =>
          rw [hIns] at h
          obtain ⟨⟨v, hv, hsrc⟩, hiss, hrel⟩ := ih _ r h
          refine ⟨⟨v, hv, ?_⟩, ?_, ?_⟩
          · rcases hsrc with hs | hs
            · exact Or.inr ⟨raw, List.mem_cons_self raw rest, (Option.some_inj.mp hs) ▸ hIns⟩
            · exact Or.inr (srcLift hs)
          · rcases hiss with hs | ⟨v2, hv2, hs⟩
            · exact Or.inl hs
            · exact Or.inr ⟨v2, hv2, srcLift hs⟩
          · rcases hrel with hs | hs | ⟨v2, hv2, hs⟩
            · exact Or.inr (Or.inl hs)
            · exact Or.inr (Or.inl hs)
            · exact Or.inr (Or.inr ⟨v2, hv2, srcLift hs⟩)
        | none =>
          rw [hIns] at h
          cases hRel : relOf (pyStrip raw) with
          | some v0 =>
            rw [hRel] at h
            obtain ⟨⟨v, hv, hsrc⟩, hiss, hrel⟩ := ih _ r h
            refine ⟨⟨v, hv, ?_⟩, ?_, ?_⟩
            · rcases hsrc with hs | hs
              · exact Or.inl hs
              · exact Or.inr (srcLift hs)
            · rcases hiss with hs | ⟨v2, hv2, hs⟩
              · exact Or.inl hs
              · exact Or.inr ⟨v2, hv2, srcLift hs⟩
            · rcases hrel with hs | hs | ⟨v2, hv2, hs⟩
              · exact Or.inr (Or.inr ⟨v0, hs, raw, List.mem_cons_self raw rest, hRel⟩)
              · exact Or.inr (Or.inl hs)
              · exact Or.inr (Or.inr ⟨v2, hv2, srcLift hs⟩)
          | none =>
            rw [hRel] at h
            cases hTx : txOf (pyStrip raw) with
            | some tr =>
              rw [hTx] at h
              have h2 : r ∈ (if optTruthy ctx.insider = true then
                  buildRec ctx tr.1 tr.2 :: pageLoop ctx rest
                else pageLoop ctx rest) := h
              by_cases htr : optTruthy ctx.insider = true
              · rw [if_pos htr] at h2
                rcases List.mem_cons.mp h2 with h | h
                · subst h
                  cases hci : ctx.insider with
                  | none => rw [hci] at htr; exact absurd htr (by decide)
                  | some s =>
                    refine ⟨⟨s, ?_, Or.inl rfl⟩, Or.inl rfl, Or.inl rfl⟩
                    show ctx.insider = some s
                    exact hci
                · obtain ⟨⟨v, hv, hsrc⟩, hiss, hrel⟩ := ih ctx r h
                  refine ⟨⟨v, hv, ?_⟩, ?_, ?_⟩
                  · rcases hsrc with hs | hs
                    · exact Or.inl hs
                    · exact Or.inr (srcLift hs)
                  · rcases hiss with hs | ⟨v2, hv2, hs⟩
                    · exact Or.inl hs
                    · exact Or.inr ⟨v2, hv2, srcLift hs⟩
                  · rcases hrel with hs | hs | ⟨v2, hv2, hs⟩
                    · exact Or.inl hs
                    · exact Or.inr (Or.inl hs)
                    · exact Or.inr (Or.inr ⟨v2, hv2, srcLift hs⟩)
              · rw [if_neg htr] at h2
                obtain ⟨⟨v, hv, hsrc⟩, hiss, hrel⟩ := ih ctx r h2
                refine ⟨⟨v, hv, ?_⟩, ?_, ?_⟩
                · rcases hsrc with hs | hs
                  · exact Or.inl hs
                  · exact Or.inr (srcLift hs)
                · rcases hiss with hs | ⟨v2, hv2, hs⟩
                  · exact Or.inl hs
                  · exact Or.inr ⟨v2, hv2, srcLift hs⟩
                · rcases hrel with hs | hs | ⟨v2, hv2, hs⟩
                  · exact Or.inl hs
                  · exact Or.inr (Or.inl hs)
                  · exact Or.inr (Or.inr ⟨v2, hv2, srcLift hs⟩)
            | none =>
              rw [hTx] at h
              obtain ⟨⟨v, hv, hsrc⟩, hiss, hrel⟩ := ih ctx r h
              refine ⟨⟨v, hv, ?_⟩, ?_, ?_⟩
              · rcases hsrc with hs | hs
                · exact Or.inl hs
                · exact Or.inr (srcLift hs)
              · rcases hiss with hs | ⟨v2, hv2, hs⟩
                · exact Or.inl hs
                · exact Or.inr ⟨v2, hv2, srcLift hs⟩
              · rcases hrel with hs | hs | ⟨v2, hv2, hs⟩
                · exact Or.inl hs
                · exact Or.inr (Or.inl hs)
                · exact Or.inr (Or.inr ⟨v2, hv2, srcLift hs⟩)

theorem pageLoop_nil_of_no_insider : ∀ (lines : List (List Char)) (ctx : Ctx),
    ctx.insider = none → (∀ l ∈ lines, insiderOf (pyStrip l) = none) →
    pageLoop ctx lines = [] := by
  intro lines
  induction lines with
  | nil => intro ctx _ _; rfl
  | cons raw rest ih =>
    intro ctx hci hno
    simp only [pageLoop]
    by_cases he : pyStrip raw = []
    · rw [if_pos he]
      exact ih ctx hci (fun l hl => hno l (List.mem_cons_of_mem _ hl))
    · rw [if_neg he]
      cases hIss : issuerOf (pyStrip raw) with
      | some v0 =>
        exact ih _ (by simpa using hci) (fun l hl => hno l (List.mem_cons_of_mem _ hl))
      | none =>
        rw [hno raw (List.mem_cons_self raw rest)]
        cases hRel : relOf (pyStrip raw) with
        | some v0 =>
          exact ih _ (by simpa using hci) (fun l hl => hno l (List.mem_cons_of_mem _ hl))
        | none =>
          cases hTx : txOf (pyStrip raw) with
          | some tr =>
            show (if optTruthy ctx.insider = true then
                buildRec ctx tr.1 tr.2 :: pageLoop ctx rest
              else pageLoop ctx rest) = []
            rw [if_neg (show ¬ optTruthy ctx.insider = true by rw [hci]; decide)]
            exact ih ctx hci (fun l hl => hno l (List.mem_cons_of_mem _ hl))
          | none =>
            exact ih ctx hci (fun l hl => hno l (List.mem_cons_of_mem _ hl))

/-- Claim C9: every record emitted by the extractor has a non-null
insider name — a transaction line is emitted only when the `insider`
context is set, so rows before the first insider header are never
emitted. -/
theorem claim9_insider_always_set (pages : List (List (List Char))) (r : SediRec)
    (h : r ∈ parseSedi pages) : r.insiderName.isSome = true := by
  have h1 : r ∈ (pages.map parsePage).flatten := dedupGo_sub _ _ _ h
  obtain ⟨l, hl, hr⟩ := List.mem_flatten.mp h1
  obtain ⟨p, _, rfl⟩ := List.mem_map.mp hl
  obtain ⟨v, hv, _⟩ := (pageLoop_src p ⟨none, none, none⟩ r hr).1
  rw [hv]
  rfl

theorem claim9_insider_always_set_witness :
    (⟨strL "123456", some (strL "Jane Roe"), none, none, some (strL "2023-01-02"),
        none, none, none⟩ : SediRec).insiderName.isSome = true :=
  claim9_insider_always_set [[strL "Insider: Jane Roe", strL "123456 2023-01-02"]]
    ⟨strL "123456", some (strL "Jane Roe"), none, none, some (strL "2023-01-02"),
      none, none, none⟩ (by decide)

/-- Claim C10: the extractor's context is re-initialised at every page:
the full parse is the page-wise scan from the all-`None` context (first
conjunct, the code's structure); a page with no insider header emits
nothing (second conjunct); and every record emitted from a page draws
its insider name — and its issuer and relationship, when set — from
header lines of that same page, never from an earlier one (third
conjunct). -/
theorem claim10_page_reset (pages : List (List (List Char))) (p : List (List Char)) :
    parseSedi pages = dedupGo [] (pages.map parsePage).flatten ∧
    ((∀ l ∈ p, insiderOf (pyStrip l) = none) → parsePage p = []) ∧
    (∀ r ∈ parsePage p,
      (∃ v, r.insiderName = some v ∧ ∃ l ∈ p, insiderOf (pyStrip l) = some v) ∧
      (r.issuer = none ∨ ∃ v, r.issuer = some v ∧ ∃ l ∈ p, issuerOf (pyStrip l) = some v) ∧
      (r.relationship = none ∨
        ∃ v, r.relationship = some v ∧ ∃ l ∈ p, relOf (pyStrip l) = some v)) := by
  refine ⟨rfl, ?_, ?_⟩
  · intro hno
    exact pageLoop_nil_of_no_insider p ⟨none, none, none⟩ rfl hno
  · intro r hr
    obtain ⟨⟨v, hv, hsrc⟩, hiss, hrel⟩ := pageLoop_src p ⟨none, none, none⟩ r hr
    refine ⟨⟨v, hv, ?_⟩, ?_, ?_⟩
    · rcases hsrc with hs | hs
      · exact absurd hs (by simp)
      · exact hs
    · rcases hiss with hs | hs
      · exact Or.inl hs
      · exact Or.inr hs
    · rcases hrel with hs | hs | hs
      · exact Or.inl hs
      · exact Or.inl hs
      · exact Or.inr hs

theorem claim10_page_reset_witness :
    parsePage [strL "Issuer: Acme Corp", strL "123456 2023-01-02"] = [] :=
  (claim10_page_reset [] [strL "Issuer: Acme Corp", strL "123456 2023-01-02"]).2.1
    (by decide)

theorem charToNat_ofNat_small {n : Nat} (h : n < 55296) : (Char.ofNat n).toNat = n := by
  have hv : Nat.isValidChar n := Or.inl h
  rw [Char.ofNat, dif_pos hv]
  simp [Char.ofNatAux, Char.toNat, UInt32.toNat, BitVec.toNat_ofNat]

theorem char_toNat_inj {c d : Char} (h : c.toNat = d.toNat) : c = d := by
  rw [← Char.ofNat_toNat c, ← Char.ofNat_toNat d, h]

theorem pyLower_cases (c : Char) :
    pyLower c = c ∨ (97 ≤ (pyLower c).toNat ∧ (pyLower c).toNat ≤ 122) := by
  unfold pyLower
  split_ifs with h
  · right
    rw [charToNat_ofNat_small (by omega)]
    omega
  · left
    rfl

theorem pyLower_idem (c : Char) : pyLower (pyLower c) = pyLower c := by
  rcases pyLower_cases c with h | h
  · rw [h, h]
  · generalize pyLower c = d at h ⊢
    rw [pyLower, if_neg (by omega)]

theorem isWs_iff (c : Char) : isWs c = true ↔
    c.toNat = 32 ∨ c.toNat = 9 ∨ c.toNat = 10 ∨ c.toNat = 13 ∨
      c.toNat = 11 ∨ c.toNat = 12 := by
  constructor
  · intro h
    simp only [isWs, Bool.or_eq_true, decide_eq_true_eq] at h
    rcases h with ((((h | h) | h) | h) | h) | h <;> subst h <;> decide
  · intro h
    rcases h with h | h | h | h | h | h
    · rw [char_toNat_inj (show c.toNat = Char.toNat ' ' from h)]; decide
    · rw [char_toNat_inj (show c.toNat = Char.toNat '\t' from h)]; decide
    · rw [char_toNat_inj (show c.toNat = Char.toNat '\n' from h)]; decide
    · rw [char_toNat_inj (show c.toNat = Char.toNat '\r' from h)]; decide
    · rw [char_toNat_inj (show c.toNat = (Char.ofNat 11).toNat from by
        rw [charToNat_ofNat_small (by omega)]; exact h)]; decide
    · rw [char_toNat_inj (show c.toNat = (Char.ofNat 12).toNat from by
        rw [charToNat_ofNat_small (by omega)]; exact h)]; decide

theorem isWs_pyLower (c : Char) : isWs (pyLower c) = isWs c := by
  rcases pyLower_cases c with h | h
  · rw [h]
  · have h2 : isWs (pyLower c) = false := by
      cases hb : isWs (pyLower c)
      · rfl
      · have := (isWs_iff (pyLower c)).mp hb
        omega
    rw [h2]
    cases hb : isWs c
    · rfl
    · have h3 := (isWs_iff c).mp hb
      have h4 : pyLower c = c := by
        rw [pyLower, if_neg (by omega)]
      rw [h4] at h
      omega

theorem pyLower_sp : pyLower ' ' = ' ' := by decide

theorem pyLower_eq_sp_iff (c : Char) : pyLower c = ' ' ↔ c = ' ' := by
  constructor
  · intro h
    rcases pyLower_cases c with h2 | h2
    · rw [← h2]; exact h
    · rw [h] at h2
      exact absurd h2 (by decide)
  · intro h
    rw [h]
    decide

theorem decompTable_keys_big : ∀ p ∈ decompTable, 128 ≤ p.1.toNat := by decide

theorem decompTable_values_ok :
    ∀ p ∈ decompTable, ∀ e ∈ p.2,
      isCombining e = true ∨ List.lookup e decompTable = none := by decide

theorem lookup_none_aux : ∀ (L : List (Char × List Char)),
    (∀ p ∈ L, 128 ≤ p.1.toNat) → ∀ c : Char, c.toNat < 128 → List.lookup c L = none := by
  intro L
  induction L with
  | nil => intro _ c _; rfl
  | cons p t ih =>
    intro hL c hc
    have hne : (c == p.1) = false := by
      cases hb : c == p.1
      · rfl
      · have heq : c = p.1 := beq_iff_eq.mp hb
        have hbig := hL p (List.mem_cons_self p t)
        rw [heq] at hc
        omega
    simp only [List.lookup, hne]
    exact ih (fun q hq => hL q (List.mem_cons_of_mem _ hq)) c hc

theorem lookup_none_of_ascii {c : Char} (hc : c.toNat < 128) :
    List.lookup c decompTable = none :=
  lookup_none_aux decompTable decompTable_keys_big c hc

theorem lookup_mem_aux : ∀ (L : List (Char × List Char)) (d : Char) (v : List Char),
    List.lookup d L = some v → (d, v) ∈ L := by
  intro L
  induction L with
  | nil => intro d v h; exact absurd h (by simp [List.lookup])
  | cons p t ih =>
    intro d v h
    cases hb : d == p.1 with
    | true =>
      simp only [List.lookup, hb] at h
      have h1 : d = p.1 := beq_iff_eq.mp hb
      have h2 : v = p.2 := by injection h with h3; exact h3.symm
      rw [h1, h2]
      exact List.mem_cons_self p t
    | false =>
      simp only [List.lookup, hb] at h
      exact List.mem_cons_of_mem _ (ih d v h)

/-- Characters that pass unchanged through every stage of the
normalisation pipeline's second run: no decomposition, not combining,
not a period or comma. -/
abbrev charOk (c : Char) : Prop :=
  decomp c = [c] ∧ isCombining c = false ∧ c ≠ '.' ∧ c ≠ ','

theorem charOk_of_stripDiacritics {l : List Char} {c : Char}
    (h : c ∈ stripDiacritics l) : decomp c = [c] ∧ isCombining c = false := by
  simp only [stripDiacritics, List.mem_filter, List.mem_flatMap] at h
  obtain ⟨⟨d, _, hcd⟩, hcomb⟩ := h
  have hcomb' : isCombining c = false := by
    cases hb : isCombining c
    · rfl
    · rw [hb] at hcomb; exact absurd hcomb (by decide)
  refine ⟨?_, hcomb'⟩
  cases hl : List.lookup d decompTable with
  | none =>
    have hd : decomp d = [d] := by simp [decomp, hl]
    rw [hd] at hcd
    have : c = d := by simpa using hcd
    rw [this, hd]
  | some v =>
    have hcv : c ∈ v := by
      rw [decomp, hl] at hcd
      simpa using hcd
    have hmem := lookup_mem_aux decompTable d v hl
    rcases decompTable_values_ok (d, v) hmem c hcv with h2 | h2
    · rw [h2] at hcomb'; exact absurd hcomb' (by decide)
    · simp [decomp, h2]

theorem charOk_of_lower_ascii {c : Char} (h1 : 97 ≤ c.toNat) (h2 : c.toNat ≤ 122) :
    charOk c := by
  refine ⟨by simp [decomp, lookup_none_of_ascii (show c.toNat < 128 by omega)], ?_, ?_, ?_⟩
  · cases hb : isCombining c
    · rfl
    · have := hb
      simp only [isCombining, Bool.and_eq_true, decide_eq_true_eq] at this
      omega
  · intro he
    rw [he] at h1
    exact absurd h1 (by decide)
  · intro he
    rw [he] at h1
    exact absurd h1 (by decide)

theorem charOk_pyLower {c : Char} (h : charOk c) : charOk (pyLower c) := by
  rcases pyLower_cases c with h2 | h2
  · rw [h2]; exact h
  · exact charOk_of_lower_ascii h2.1 h2.2

theorem mem_replaceMoji_aux : ∀ (n : Nat) (l : List Char), l.length ≤ n →
    ∀ c : Char, c ∈ replaceMoji l → c = '\'' ∨ c ∈ l := by
  intro n
  induction n with
  | zero =>
    intro l hl c hc
    rw [List.length_eq_zero.mp (Nat.le_zero.mp hl)] at hc
    exact absurd hc (List.not_mem_nil c)
  | succ n ih =>
    intro l hl c hc
    rw [replaceMoji.eq_def] at hc
    split at hc
    · next cs =>
      rcases List.mem_cons.mp hc with h | h
      · exact Or.inl h
      · rcases ih cs (by simp at hl; omega) c h with h | h
        · exact Or.inl h
        · exact Or.inr (by simp [h])
    · next c0 cs _ =>
      rcases List.mem_cons.mp hc with h | h
      · exact Or.inr (h ▸ List.mem_cons_self c0 cs)
      · rcases ih cs (by simp at hl; omega) c h with h | h
        · exact Or.inl h
        · exact Or.inr (List.mem_cons_of_mem _ h)
    · exact absurd hc (List.not_mem_nil c)

theorem mem_replaceMoji {l : List Char} {c : Char} (h : c ∈ replaceMoji l) :
    c = '\'' ∨ c ∈ l :=
  mem_replaceMoji_aux l.length l (Nat.le_refl _) c h

theorem mem_collapseWs : ∀ {l : List Char} {c : Char},
    c ∈ collapseWs l → c = ' ' ∨ c ∈ l
  | [], c, h => absurd h (List.not_mem_nil c)
  | [d], c, h => by
    by_cases hd : isWs d = true
    · rw [collapseWs, if_pos hd] at h
      exact Or.inl (by simpa using h)
    · rw [collapseWs, if_neg hd] at h
      exact Or.inr (by simpa using h)
  | d :: e :: t, c, h => by
    by_cases hd : isWs d = true
    · by_cases he : isWs e = true
      · rw [collapseWs, if_pos hd, if_pos he] at h
        rcases mem_collapseWs h with h | h
        · exact Or.inl h
        · exact Or.inr (List.mem_cons_of_mem _ h)
      · rw [collapseWs, if_pos hd, if_neg he] at h
        rcases List.mem_cons.mp h with h | h
        · exact Or.inl h
        · rcases mem_collapseWs h with h | h
          · exact Or.inl h
          · exact Or.inr (List.mem_cons_of_mem _ h)
    · rw [collapseWs, if_neg hd] at h
      rcases List.mem_cons.mp h with h | h
      · exact Or.inr (h ▸ List.mem_cons_self d (e :: t))
      · rcases mem_collapseWs h with h | h
        · exact Or.inl h
        · exact Or.inr (List.mem_cons_of_mem _ h)

theorem mem_pyStrip {l : List Char} {c : Char} (h : c ∈ pyStrip l) : c ∈ l := by
  unfold pyStrip at h
  rw [List.mem_reverse] at h
  have h1 : c ∈ (l.dropWhile isWs).reverse := (List.dropWhile_sublist isWs).mem h
  rw [List.mem_reverse] at h1
  exact (List.dropWhile_sublist isWs).mem h1

/-- True when the list does not start with whitespace. -/
def noLead : List Char → Bool
  | [] => true
  | c :: _ => !isWs c

/-- True when the list does not end with whitespace. -/
def noTrail (l : List Char) : Bool := noLead l.reverse

/-- Canonical whitespace shape: every whitespace character is `' '` and
never immediately followed by more whitespace. -/
def wsTidy : List Char → Bool
  | [] => true
  | [c] => !isWs c || c == ' '
  | c :: d :: t => (!isWs c || (c == ' ' && !isWs d)) && wsTidy (d :: t)

theorem bool_and_elim {a b : Bool} (h : (a && b) = true) : a = true ∧ b = true := by
  simp at h; exact h

theorem bool_or_elim {a b : Bool} (h : (a || b) = true) : a = true ∨ b = true := by
  simp at h
  rcases h with h | h
  · exact Or.inl h
  · exact Or.inr h

theorem wsTidy_tail {c : Char} {t : List Char} (h : wsTidy (c :: t) = true) :
    wsTidy t = true := by
  cases t with
  | nil => rfl
  | cons d t' => exact (bool_and_elim h).2

theorem collapse_noLead : ∀ l : List Char, noLead l = true → noLead (collapseWs l) = true
  | [] => fun _ => rfl
  | [c] => by
    intro h
    have hc : isWs c = false := by simpa [noLead] using h
    rw [collapseWs, if_neg (by simp [hc])]
    simpa [noLead] using h
  | c :: d :: t => by
    intro h
    have hc : isWs c = false := by simpa [noLead] using h
    rw [collapseWs, if_neg (by simp [hc])]
    simpa [noLead] using h

theorem wsTidy_cons_sp {X : List Char} (h1 : noLead X = true) (h2 : wsTidy X = true) :
    wsTidy (' ' :: X) = true := by
  cases X with
  | nil => decide
  | cons x t =>
    have hx : isWs x = false := by simpa [noLead] using h1
    simp [wsTidy, hx, h2]

theorem wsTidy_cons_nonws {c : Char} {X : List Char} (hc : isWs c = false)
    (h2 : wsTidy X = true) : wsTidy (c :: X) = true := by
  cases X with
  | nil => simp [wsTidy, hc]
  | cons x t => simp [wsTidy, hc, h2]

theorem wsTidy_collapse : ∀ l : List Char, wsTidy (collapseWs l) = true
  | [] => rfl
  | [c] => by
    by_cases hc : isWs c = true
    · rw [collapseWs, if_pos hc]; decide
    · rw [collapseWs, if_neg hc]
      simp [wsTidy, Bool.eq_false_iff.mpr hc]
  | c :: d :: t => by
    have ih := wsTidy_collapse (d :: t)
    by_cases hc : isWs c = true
    · by_cases hd : isWs d = true
      · rw [collapseWs, if_pos hc, if_pos hd]
        exact ih
      · rw [collapseWs, if_pos hc, if_neg hd]
        exact wsTidy_cons_sp
          (collapse_noLead (d :: t) (by simpa [noLead] using Bool.eq_false_iff.mpr hd)) ih
    · rw [collapseWs, if_neg hc]
      exact wsTidy_cons_nonws (Bool.eq_false_iff.mpr hc) ih

theorem collapse_eq_self : ∀ l : List Char, wsTidy l = true → collapseWs l = l
  | [] => fun _ => rfl
  | [c] => by
    intro h
    simp only [wsTidy, Bool.or_eq_true, Bool.not_eq_true', beq_iff_eq] at h
    by_cases hc : isWs c = true
    · have hsp : c = ' ' := by
        rcases h with h | h
        · rw [h] at hc; exact absurd hc (by decide)
        · exact h
      rw [collapseWs, if_pos hc, hsp]
    · rw [collapseWs, if_neg hc]
  | c :: d :: t => by
    intro h
    have ih := collapse_eq_self (d :: t) (wsTidy_tail h)
    simp only [wsTidy, Bool.and_eq_true, Bool.or_eq_true, Bool.not_eq_true',
      beq_iff_eq] at h
    by_cases hc : isWs c = true
    · rcases h.1 with h2 | ⟨hsp, hd⟩
      · rw [h2] at hc; exact absurd hc (by decide)
      · rw [collapseWs, if_pos hc, if_neg (by simp [hd]), ih, hsp]
    · rw [collapseWs, if_neg hc, ih]

theorem wsTidy_dropWhile {p : Char → Bool} : ∀ l : List Char, wsTidy l = true →
    wsTidy (l.dropWhile p) = true := by
  intro l
  induction l with
  | nil => intro _; rfl
  | cons c t ih =>
    intro h
    rw [List.dropWhile_cons]
    by_cases hc : p c = true
    · rw [if_pos hc]
      exact ih (wsTidy_tail h)
    · rw [if_neg hc]
      exact h

theorem dropWhile_noLead : ∀ l : List Char, noLead (l.dropWhile isWs) = true := by
  intro l
  induction l with
  | nil => rfl
  | cons c t ih =>
    rw [List.dropWhile_cons]
    by_cases hc : isWs c = true
    · rw [if_pos hc]; exact ih
    · rw [if_neg hc]
      simpa [noLead] using Bool.eq_false_iff.mpr hc

theorem wsTidy_append_left : ∀ a b : List Char, wsTidy (a ++ b) = true → wsTidy a = true
  | [], _ => fun _ => rfl
  | [c], b => by
    intro h
    cases b with
    | nil => simpa using h
    | cons x t =>
      have h' : wsTidy (c :: x :: t) = true := by simpa using h
      simp only [wsTidy, Bool.and_eq_true, Bool.or_eq_true, Bool.not_eq_true',
        beq_iff_eq] at h'
      rcases h'.1 with h2 | ⟨hsp, _⟩
      · simp [wsTidy, h2]
      · simp [wsTidy, hsp]
  | c :: d :: t, b => by
    intro h
    have h' : wsTidy (c :: d :: (t ++ b)) = true := by simpa using h
    have ih := wsTidy_append_left (d :: t) b (wsTidy_tail h')
    simp only [wsTidy, Bool.and_eq_true, Bool.or_eq_true, Bool.not_eq_true',
      beq_iff_eq] at h' ⊢
    exact ⟨h'.1, ih⟩

theorem wsTidy_of_pre {l1 l2 : List Char} (h : l1 <+: l2) (h2 : wsTidy l2 = true) :
    wsTidy l1 = true := by
  obtain ⟨t, rfl⟩ := h
  exact wsTidy_append_left l1 t h2

theorem noLead_of_pre {l1 l2 : List Char} (h : l1 <+: l2) (h2 : noLead l2 = true) :
    noLead l1 = true := by
  obtain ⟨t, rfl⟩ := h
  cases l1 with
  | nil => rfl
  | cons c r => simpa [noLead] using h2

theorem revdropPre (m : List Char) : (m.reverse.dropWhile isWs).reverse <+: m := by
  have hs : m.reverse.dropWhile isWs <:+ m.reverse := List.dropWhile_suffix _
  have h2 := @List.reverse_suffix Char ((m.reverse.dropWhile isWs).reverse) m
  rw [List.reverse_reverse] at h2
  exact h2.mp hs

theorem pyStrip_noLead (l : List Char) : noLead (pyStrip l) = true :=
  noLead_of_pre (revdropPre _) (dropWhile_noLead l)

theorem pyStrip_noTrail (l : List Char) : noTrail (pyStrip l) = true := by
  unfold pyStrip noTrail
  rw [List.reverse_reverse]
  exact dropWhile_noLead _

theorem pyStrip_wsTidy {l : List Char} (h : wsTidy l = true) :
    wsTidy (pyStrip l) = true :=
  wsTidy_of_pre (revdropPre _) (wsTidy_dropWhile l h)

theorem dropWhile_eq_self_of_noLead {l : List Char} (h : noLead l = true) :
    l.dropWhile isWs = l := by
  cases l with
  | nil => rfl
  | cons c t =>
    rw [List.dropWhile_cons, if_neg (by simpa [noLead] using h)]

theorem pyStrip_eq_self {l : List Char} (h1 : noLead l = true) (h2 : noTrail l = true) :
    pyStrip l = l := by
  unfold pyStrip
  rw [dropWhile_eq_self_of_noLead h1, dropWhile_eq_self_of_noLead h2,
    List.reverse_reverse]

theorem beq_sp_pyLower (c : Char) : (pyLower c == ' ') = (c == ' ') := by
  cases hb : c == ' '
  · cases hb2 : pyLower c == ' '
    · rfl
    · have h1 : pyLower c = ' ' := beq_iff_eq.mp hb2
      have h2 : c = ' ' := (pyLower_eq_sp_iff c).mp h1
      rw [h2] at hb
      exact absurd hb (by decide)
  · have h2 : c = ' ' := beq_iff_eq.mp hb
    rw [h2]
    decide

theorem wsTidy_lowerL : ∀ l : List Char, wsTidy (lowerL l) = wsTidy l
  | [] => rfl
  | [c] => by
    simp only [lowerL, List.map_cons, List.map_nil, wsTidy, isWs_pyLower, beq_sp_pyLower]
  | c :: d :: t => by
    have ih := wsTidy_lowerL (d :: t)
    simp only [lowerL, List.map_cons, wsTidy, isWs_pyLower, beq_sp_pyLower] at ih ⊢
    rw [ih]

theorem noLead_lowerL (l : List Char) : noLead (lowerL l) = noLead l := by
  cases l with
  | nil => rfl
  | cons c t => simp only [lowerL, List.map_cons, noLead, isWs_pyLower]

theorem noTrail_lowerL (l : List Char) : noTrail (lowerL l) = noTrail l := by
  unfold noTrail
  rw [show (lowerL l).reverse = lowerL l.reverse by
    unfold lowerL; rw [List.map_reverse]]
  exact noLead_lowerL l.reverse

theorem stripDiacritics_fixed : ∀ l : List Char,
    (∀ c ∈ l, decomp c = [c] ∧ isCombining c = false) → stripDiacritics l = l := by
  intro l
  induction l with
  | nil => intro _; rfl
  | cons c t ih =>
    intro h
    have hc := h c (List.mem_cons_self c t)
    show ((c :: t).flatMap decomp).filter (fun c => !isCombining c) = c :: t
    rw [List.flatMap_cons, List.filter_append, hc.1]
    have h2 : List.filter (fun c => !isCombining c) [c] = [c] := by simp [hc.2]
    rw [h2, show (t.flatMap decomp).filter (fun c => !isCombining c) = t from
      ih (fun x hx => h x (List.mem_cons_of_mem _ hx))]
    rfl

theorem replaceMoji_fixed_aux : ∀ (n : Nat) (l : List Char), l.length ≤ n →
    'â' ∉ l → replaceMoji l = l := by
  intro n
  induction n with
  | zero =>
    intro l hl _
    rw [List.length_eq_zero.mp (Nat.le_zero.mp hl)]
    rfl
  | succ n ih =>
    intro l hl hm
    rw [replaceMoji.eq_def]
    split
    · exact absurd (List.mem_cons_self 'â' _) hm
    · next c0 cs _ =>
      have h2 : 'â' ∉ cs := fun hx => hm (List.mem_cons_of_mem _ hx)
      rw [ih cs (by simp at hl; omega) h2]
    · rfl

theorem replaceMoji_fixed {l : List Char} (h : 'â' ∉ l) : replaceMoji l = l :=
  replaceMoji_fixed_aux l.length l (Nat.le_refl _) h

theorem mapDot_fixed {l : List Char} (h : ∀ c ∈ l, c ≠ '.' ∧ c ≠ ',') :
    l.map dotToSp = l := by
  have h2 : ∀ c ∈ l, dotToSp c = id c := by
    intro c hc
    rcases h c hc with ⟨h1, h2⟩
    simp [dotToSp, h1, h2]
  rw [List.map_congr_left h2, List.map_id]

theorem lowerL_idem (l : List Char) : lowerL (lowerL l) = lowerL l := by
  unfold lowerL
  rw [List.map_map]
  exact List.map_congr_left (fun c _ => pyLower_idem c)

theorem pySplitChar_ne_nil (sep : Char) : ∀ l : List Char, pySplitChar sep l ≠ []
  | [] => by simp [pySplitChar]
  | c :: cs => by
    rw [pySplitChar]
    by_cases h : c = sep
    · rw [if_pos h]; simp
    · rw [if_neg h]
      cases hp : pySplitChar sep cs with
      | nil => simp
      | cons t ts => simp

theorem joinSp_cons_ne {x : List Char} {ts : List (List Char)} (h : ts ≠ []) :
    joinSp (x :: ts) = x ++ ' ' :: joinSp ts := by
  cases ts with
  | nil => exact absurd rfl h
  | cons t ts' => rfl

theorem joinSp_pySplitChar : ∀ l : List Char, joinSp (pySplitChar ' ' l) = l
  | [] => rfl
  | c :: cs => by
    have ih := joinSp_pySplitChar cs
    rw [pySplitChar]
    by_cases h : c = ' '
    · rw [if_pos h, joinSp_cons_ne (pySplitChar_ne_nil ' ' cs)]
      rw [List.nil_append, ih, h]
    · rw [if_neg h]
      cases hp : pySplitChar ' ' cs with
      | nil => exact absurd hp (pySplitChar_ne_nil ' ' cs)
      | cons t ts =>
        rw [hp] at ih
        cases ts with
        | nil =>
          show c :: t = c :: cs
          rw [show t = cs from ih]
        | cons t2 ts2 =>
          show c :: joinSp (t :: t2 :: ts2) = c :: cs
          rw [ih]

theorem filter_not_mem_nil (L : List (List Char)) :
    L.filter (fun t => !([] : List (List Char)).contains t) = L := by
  apply List.filter_eq_self.mpr
  intro a _
  rfl

/-- The comma-free, non-empty branch of `normalise_name` with an empty
title set: token filtering is the identity and splitting on spaces then
re-joining restores the string. -/
theorem normaliseName_no_comma {s : List Char} (hne : s ≠ []) (h : ',' ∉ s) :
    normaliseName s [] =
      lowerL (pyStrip (collapseWs ((replaceMoji (stripDiacritics s)).map dotToSp))) := by
  have hcontains : s.contains ',' = false := by
    cases hb : s.contains ','
    · rfl
    · exact absurd (List.elem_iff.mp hb) h
  simp only [normaliseName]
  rw [if_neg hne, if_neg (show ¬ s.contains ',' = true by
    intro hh; rw [hcontains] at hh; exact absurd hh (by decide))]
  rw [filter_not_mem_nil, joinSp_pySplitChar]

theorem branchA_charOk {s : List Char} {c : Char}
    (hc : c ∈ lowerL (pyStrip (collapseWs ((replaceMoji (stripDiacritics s)).map dotToSp)))) :
    charOk c := by
  obtain ⟨c1, hc1, rfl⟩ := List.mem_map.mp hc
  apply charOk_pyLower
  have hc2 := mem_pyStrip hc1
  rcases mem_collapseWs hc2 with h | h
  · rw [h]; decide
  · obtain ⟨c2, hc3, rfl⟩ := List.mem_map.mp h
    by_cases hdot : c2 = '.' ∨ c2 = ','
    · rw [dotToSp, if_pos hdot]; decide
    · rw [dotToSp, if_neg hdot]
      rcases mem_replaceMoji hc3 with h2 | h2
      · rw [h2]; decide
      · obtain ⟨hd, hcomb⟩ := charOk_of_stripDiacritics h2
        exact ⟨hd, hcomb, fun he => hdot (Or.inl he), fun he => hdot (Or.inr he)⟩

/-- Claim C8 (amended): `normalise_name` with an empty title set is
idempotent on every input that contains no comma.  (The original claim,
over all inputs, is refuted by `claim8_counterexample`: the comma path
copies raw text of the original name, whose periods — and, for accented
or upper-case text, other characters — are then rewritten by a second
normalisation.) -/
theorem claim8_idempotent_comma_free (s : List Char) (h : ',' ∉ s) :
    normaliseName (normaliseName s []) [] = normaliseName s [] := by
  by_cases hs : s = []
  · subst hs; rfl
  rw [normaliseName_no_comma hs h]
  set x := (replaceMoji (stripDiacritics s)).map dotToSp with hx
  set r := lowerL (pyStrip (collapseWs x)) with hr
  have hchar : ∀ c ∈ r, charOk c := by
    intro c hc
    rw [hr, hx] at hc
    exact branchA_charOk hc
  have hnc : ',' ∉ r := fun hm => (hchar ',' hm).2.2.2 rfl
  by_cases hrnil : r = []
  · rw [hrnil]; rfl
  have hu : wsTidy (pyStrip (collapseWs x)) = true := pyStrip_wsTidy (wsTidy_collapse x)
  have hrT : wsTidy r = true := by rw [hr, wsTidy_lowerL]; exact hu
  have hrL : noLead r = true := by rw [hr, noLead_lowerL]; exact pyStrip_noLead _
  have hrR : noTrail r = true := by rw [hr, noTrail_lowerL]; exact pyStrip_noTrail _
  have hna : 'â' ∉ r := by
    intro hm
    exact absurd (hchar 'â' hm).1 (by decide)
  rw [normaliseName_no_comma hrnil hnc,
    stripDiacritics_fixed r (fun c hc => ⟨(hchar c hc).1, (hchar c hc).2.1⟩),
    replaceMoji_fixed hna,
    mapDot_fixed (fun c hc => ⟨(hchar c hc).2.2.1, (hchar c hc).2.2.2⟩),
    collapse_eq_self r hrT,
    pyStrip_eq_self hrL hrR,
    hr, lowerL_idem]

theorem claim8_idempotent_comma_free_witness :
    normaliseName (normaliseName (strL "Dr.  Ann   SMITH") []) [] =
      normaliseName (strL "Dr.  Ann   SMITH") [] :=
  claim8_idempotent_comma_free (strL "Dr.  Ann   SMITH") (by decide)

/-- Counterexample to claim C8 as stated: normalisation with an empty
title set is NOT idempotent on every string.  The comma path copies the
original segments verbatim (apart from lowercasing), so
`normalise_name("Smith Jr., John", {})` is `"john smith jr."`; a second
normalisation replaces the period with a space and collapses, giving
`"john smith jr"`. -/
theorem claim8_counterexample :
    normaliseName (normaliseName (strL "Smith Jr., John") []) [] ≠
      normaliseName (strL "Smith Jr., John") [] := by
  decide
